import Mathlib

/-!
Verification of the ERA5 wind-analysis pipeline
(`src/labs/lab3/lab3_era5_analysis.py`).

The script is a linear pandas pipeline: load CSV → parse timestamps
(`errors='coerce'`, failures become NaT) → set the timestamp as index →
sort by index → drop rows with missing column values → derive
wind_speed = sqrt(u² + v²) → group by month / season / hour →
daily resample → top-5 extreme days.

The shallow embedding below models a DataFrame as a list of rows.
Missing values (NaN / NaT) are `Option.none`.  Numeric column values are
rationals: every grouping / averaging operation of the script is generic
in the numbers it averages, and ℚ makes all of them executable; the one
place where the actual real-valued formula matters (the wind-speed
formula itself) is modelled over ℝ with `Real.sqrt`.
-/

namespace Era5

/-- A parsed timestamp, `"YYYY-MM-DD HH:MM:SS"`.  Fields are the calendar
components that the script reads back off the `DatetimeIndex`
(`.month`, `.hour`, the date for daily resampling). -/
structure Timestamp where
  year : ℕ
  month : ℕ
  day : ℕ
  hour : ℕ
  minute : ℕ
  second : ℕ
deriving DecidableEq, Repr

/-- The date portion of a timestamp (what `resample('D')` buckets by). -/
structure Date where
  year : ℕ
  month : ℕ
  day : ℕ
deriving DecidableEq, Repr

def Timestamp.date (t : Timestamp) : Date := ⟨t.year, t.month, t.day⟩

/-- Chronological order on timestamps: lexicographic on
(year, month, day, hour, minute, second). -/
def Timestamp.le (a b : Timestamp) : Prop :=
  a.year < b.year ∨ (a.year = b.year ∧
    (a.month < b.month ∨ (a.month = b.month ∧
      (a.day < b.day ∨ (a.day = b.day ∧
        (a.hour < b.hour ∨ (a.hour = b.hour ∧
          (a.minute < b.minute ∨ (a.minute = b.minute ∧
            a.second ≤ b.second)))))))))

instance : DecidableRel Timestamp.le := fun a b => by
  unfold Timestamp.le; exact inferInstance

/-- Order on dates, lexicographic on (year, month, day). -/
def Date.le (a b : Date) : Prop :=
  a.year < b.year ∨ (a.year = b.year ∧
    (a.month < b.month ∨ (a.month = b.month ∧ a.day ≤ b.day)))

/-- Strict order on dates. -/
def Date.lt (a b : Date) : Prop :=
  a.year < b.year ∨ (a.year = b.year ∧
    (a.month < b.month ∨ (a.month = b.month ∧ a.day < b.day)))

instance : DecidableRel Date.le := fun a b => by
  unfold Date.le; exact inferInstance

instance : DecidableRel Date.lt := fun a b => by
  unfold Date.lt; exact inferInstance

/-- One CSV row after `pd.read_csv` + `pd.to_datetime(..., errors='coerce')`:
a cell of the timestamp column that fails to parse becomes NaT (`none`),
a missing numeric cell is NaN (`none`).  The script only ever reads the
`u10m` and `v10m` numeric columns. -/
structure Row where
  timestamp : Option Timestamp
  u10m : Option ℚ
  v10m : Option ℚ
deriving DecidableEq, Repr

/-- `df.dropna()` (lines 78-79): drop every row that has a missing value
in some COLUMN.  pandas `DataFrame.dropna` inspects only the columns,
never the index, so a NaT index entry does not cause its row to be
dropped. -/
def dropna (rows : List Row) : List Row :=
  rows.filter (fun r => r.u10m.isSome && r.v10m.isSome)

/-- `get_season` (lines 105-117): fixed month → season-code rule,
1 = Winter, 2 = Spring, 3 = Summer, 4 = Autumn; any month matching no
listed set falls in the final `else`. -/
def get_season (month : ℤ) : ℤ :=
  if month = 12 ∨ month = 1 ∨ month = 2 then 1
  else if month = 3 ∨ month = 4 ∨ month = 5 then 2
  else if month = 6 ∨ month = 7 ∨ month = 8 then 3
  else 4

/-- `calculate_wind_speed` (lines 84-89): elementwise
`np.sqrt(u**2 + v**2)` over two equal-length series. -/
noncomputable def calculate_wind_speed (u v : List ℝ) : List ℝ :=
  List.zipWith (fun a b => Real.sqrt (a ^ 2 + b ^ 2)) u v

/-- Index order used by `df.sort_index()` on the parsed timestamp column:
chronological, with NaT entries placed last (pandas default
`na_position='last'`). -/
def natLastLe : Option Timestamp → Option Timestamp → Prop
  | some t, some u => Timestamp.le t u
  | some _, none => True
  | none, none => True
  | none, some _ => False

instance : DecidableRel natLastLe := fun a b => by
  cases a <;> cases b <;> simp only [natLastLe] <;> infer_instance

instance : DecidableRel (fun a b : Row => natLastLe a.timestamp b.timestamp) :=
  fun a b => inferInstanceAs (Decidable (natLastLe a.timestamp b.timestamp))

/-- `df.sort_index(inplace=True)` (line 39): reorder the rows ascending by
the timestamp index, NaT last.  pandas' default sort kind is quicksort,
whose order among equal keys is unspecified; the model realises one
admissible reordering via insertion sort. -/
def sort_index (rows : List Row) : List Row :=
  List.insertionSort (fun a b => natLastLe a.timestamp b.timestamp) rows

/-- The two fatal loader failures: `pd.read_csv` raising because the file
does not exist (line 34), and the `df['timestamp']` column access raising
a KeyError (line 37). -/
inductive LoadError where
  | fileNotFound
  | missingTimestampColumn
deriving DecidableEq, Repr

/-- The readable content of an input path: whether the header has a
`timestamp` column, and the parsed rows.  A row's `timestamp` field is
the result of `pd.to_datetime(..., errors='coerce')` on its cell: `none`
when the cell fails to parse. -/
structure CsvFile where
  hasTimestampColumn : Bool
  rows : List Row
deriving DecidableEq, Repr

/-- `load_era5_data` (lines 28-41).  `none` input models a path with no
file behind it (`pd.read_csv` raises).  With a file present but no
timestamp column, `df['timestamp']` raises.  Otherwise no row is ever
rejected — `errors='coerce'` turns parse failures into NaT instead of
raising — and the table is sorted by the timestamp index. -/
def load_era5_data (file : Option CsvFile) : Except LoadError (List Row) :=
  match file with
  | none => .error .fileNotFound
  | some f =>
    if f.hasTimestampColumn then .ok (sort_index f.rows)
    else .error .missingTimestampColumn

/-- Claim C8: loading fails on a missing file and on a missing timestamp
column; with both present it always succeeds, returning a permutation of
the parsed rows in which every row whose timestamp failed to parse is
still present, carrying its NaT marker. -/
theorem C8_load_errors (f : CsvFile) (hts : f.hasTimestampColumn = true) :
    load_era5_data none = .error .fileNotFound ∧
    (∀ g : CsvFile, g.hasTimestampColumn = false →
      load_era5_data (some g) = .error .missingTimestampColumn) ∧
    load_era5_data (some f) = .ok (sort_index f.rows) ∧
    (sort_index f.rows).Perm f.rows ∧
    (∀ r ∈ f.rows, r.timestamp = none → r ∈ sort_index f.rows) := by
  have hperm : (sort_index f.rows).Perm f.rows :=
    List.perm_insertionSort _ f.rows
  refine ⟨rfl, ?_, ?_, hperm, ?_⟩
  · intro g hg
    simp [load_era5_data, hg]
  · simp [load_era5_data, hts]
  · intro r hr _
    exact hperm.mem_iff.mpr hr

/-- Witness for C8: a one-row file whose single timestamp is unparseable
still loads successfully. -/
theorem C8_load_errors_witness :
    load_era5_data (some ⟨true, [Row.mk none (some 1) (some 2)]⟩) =
      .ok (sort_index [Row.mk none (some 1) (some 2)]) :=
  (C8_load_errors ⟨true, [Row.mk none (some 1) (some 2)]⟩ rfl).2.2.1

/-- Helper: `getD` of a `zipWith` inside the common length range. -/
theorem zipWith_getD (f : ℝ → ℝ → ℝ) :
    ∀ (u v : List ℝ) (i : ℕ), i < u.length → i < v.length →
      (List.zipWith f u v).getD i 0 = f (u.getD i 0) (v.getD i 0) := by
  intro u
  induction u with
  | nil => intro v i hu; simp at hu
  | cons a u ih =>
    intro v i hu hv
    cases v with
    | nil => simp at hv
    | cons b v =>
      cases i with
      | zero => simp
      | succ j =>
        simp only [List.zipWith_cons_cons, List.getD_cons_succ]
        exact ih v j (by simpa using hu) (by simpa using hv)

/-- Helper: every entry of `calculate_wind_speed` is a square root. -/
theorem mem_calculate_wind_speed_nonneg :
    ∀ (u v : List ℝ), ∀ x ∈ calculate_wind_speed u v, 0 ≤ x := by
  intro u
  induction u with
  | nil => intro v x hx; simp [calculate_wind_speed] at hx
  | cons a u ih =>
    intro v x hx
    cases v with
    | nil => simp [calculate_wind_speed] at hx
    | cons b v =>
      simp only [calculate_wind_speed, List.zipWith_cons_cons, List.mem_cons] at hx
      rcases hx with h | h
      · exact h ▸ Real.sqrt_nonneg _
      · exact ih v x h

/-- Claim C2: for every pair of input series and every in-range row index,
the wind-speed series holds `sqrt(u² + v²)`, every entry of the series is
non-negative, and on all-zero input series the result is all zeros. -/
theorem C2_calculate_wind_speed (u v : List ℝ) (n i : ℕ)
    (hu : i < u.length) (hv : i < v.length) :
    (calculate_wind_speed u v).getD i 0 =
      Real.sqrt ((u.getD i 0) ^ 2 + (v.getD i 0) ^ 2) ∧
    (∀ x ∈ calculate_wind_speed u v, 0 ≤ x) ∧
    calculate_wind_speed (List.replicate n 0) (List.replicate n 0) =
      List.replicate n 0 := by
  refine ⟨zipWith_getD _ u v i hu hv, mem_calculate_wind_speed_nonneg u v, ?_⟩
  induction n with
  | zero => rfl
  | succ m ihm =>
    simp only [List.replicate_succ, calculate_wind_speed,
      List.zipWith_cons_cons] at ihm ⊢
    refine congrArg₂ List.cons ?_ ihm
    rw [show ((0:ℝ) ^ 2 + 0 ^ 2) = 0 by norm_num, Real.sqrt_zero]

/-- Witness for C2 at concrete input. -/
theorem C2_calculate_wind_speed_witness :
    calculate_wind_speed (List.replicate 2 (0:ℝ)) (List.replicate 2 0) =
      List.replicate 2 0 :=
  (C2_calculate_wind_speed [0] [0] 2 0 (by simp) (by simp)).2.2

/-- Claim C3: on months 1..12, `get_season` follows exactly the fixed rule
{12,1,2} → 1 (Winter), {3,4,5} → 2 (Spring), {6,7,8} → 3 (Summer),
{9,10,11} → 4 (Autumn), always lands in {1,2,3,4}, and in particular
maps 1 to Winter, 6 to Summer and 12 to Winter. -/
theorem C3_get_season_rule (m : ℤ) (h1 : 1 ≤ m) (h2 : m ≤ 12) :
    (get_season m = 1 ↔ (m = 12 ∨ m = 1 ∨ m = 2)) ∧
    (get_season m = 2 ↔ (m = 3 ∨ m = 4 ∨ m = 5)) ∧
    (get_season m = 3 ↔ (m = 6 ∨ m = 7 ∨ m = 8)) ∧
    (get_season m = 4 ↔ (m = 9 ∨ m = 10 ∨ m = 11)) ∧
    (get_season m = 1 ∨ get_season m = 2 ∨ get_season m = 3 ∨ get_season m = 4) ∧
    get_season 1 = 1 ∧ get_season 6 = 3 ∧ get_season 12 = 1 := by
  interval_cases m <;> decide

/-- Witness for C3 at month 6. -/
theorem C3_get_season_rule_witness : get_season 6 = 3 :=
  (C3_get_season_rule 6 (by decide) (by decide)).2.2.2.2.2.2.1

/-- Claim C10: `get_season` is total on all integers; every month outside
the three explicitly listed sets — including out-of-range months such as
0, 13 or -1 — falls into the final `else` branch and gets the Autumn
code 4. -/
theorem C10_get_season_total (m : ℤ)
    (h1 : ¬(m = 12 ∨ m = 1 ∨ m = 2))
    (h2 : ¬(m = 3 ∨ m = 4 ∨ m = 5))
    (h3 : ¬(m = 6 ∨ m = 7 ∨ m = 8)) :
    get_season m = 4 ∧ get_season 0 = 4 ∧ get_season 13 = 4 ∧
      get_season (-1) = 4 := by
  refine ⟨?_, by decide, by decide, by decide⟩
  simp [get_season, h1, h2, h3]

/-- Witness for C10 at month 0. -/
theorem C10_get_season_total_witness : get_season 0 = 4 :=
  (C10_get_season_total 0 (by decide) (by decide) (by decide)).1

/-- Claim C9: the Cleaner is idempotent — `dropna` on its own output is a
no-op. -/
theorem C9_dropna_idempotent (rows : List Row) :
    dropna (dropna rows) = dropna rows := by
  simp [dropna, List.filter_filter]

/-- Counterexample to claim C1 as stated: a row whose timestamp failed to
parse (NaT index entry) but whose columns are complete SURVIVES the
cleaner, because `DataFrame.dropna` never inspects the index. -/
theorem C1_counterexample :
    ¬ (∀ r ∈ dropna [Row.mk none (some 1) (some 2)], r.timestamp ≠ none) := by
  decide

/-- Claim C1 (amended): after the Cleaner runs, no surviving row has a
missing value in any data column, and the row count drops by exactly the
number of rows with a missing data-column value; but a row whose
timestamp failed to parse is kept whenever its data columns are complete
(`dropna` inspects columns only, not the index). -/
theorem C1_dropna_amended (rows : List Row) :
    (∀ r ∈ dropna rows, r.u10m.isSome ∧ r.v10m.isSome) ∧
    (dropna rows).length +
      (rows.filter (fun r => !(r.u10m.isSome && r.v10m.isSome))).length
        = rows.length ∧
    (∀ r ∈ rows, r.u10m.isSome → r.v10m.isSome → r ∈ dropna rows) := by
  refine ⟨?_, ?_, ?_⟩
  · intro r hr
    simp only [dropna, List.mem_filter, Bool.and_eq_true] at hr
    exact ⟨hr.2.1, hr.2.2⟩
  · induction rows with
    | nil => rfl
    | cons r rs ih =>
      simp only [dropna, List.filter_cons] at ih ⊢
      by_cases h : (r.u10m.isSome && r.v10m.isSome) = true
      · rw [if_pos h, if_neg (by simp [h])]
        simp only [List.length_cons]
        omega
      · have h' : (r.u10m.isSome && r.v10m.isSome) = false := by simpa using h
        rw [if_neg h, if_pos (by simp [h']), List.length_cons]
        simp only [List.length_cons]
        omega
  · intro r hr h1 h2
    simp only [dropna, List.mem_filter, Bool.and_eq_true]
    exact ⟨hr, h1, h2⟩

/-- Witness for amended C1: a complete row with an unparseable timestamp
survives cleaning. -/
theorem C1_dropna_amended_witness :
    Row.mk none (some 1) (some 2) ∈
      dropna [Row.mk none (some 1) (some 2),
              Row.mk (some ⟨2024, 1, 1, 0, 0, 0⟩) none (some 3)] :=
  (C1_dropna_amended _).2.2 _ (by decide) (by decide) (by decide)

/-- A cleaned, derived row at the aggregation stage: a (valid) parsed
timestamp plus the numeric columns.  `wind_speed` is the derived column
added on lines 92-93; its numeric values are modelled as rationals,
since every grouping operation of the script is generic in the numbers
it averages. -/
structure Obs where
  ts : Timestamp
  u10m : ℚ
  v10m : ℚ
  wind_speed : ℚ
deriving DecidableEq, Repr

/-- Add one (key, value) pair to running per-key (sum, count) groups, the
way a groupby-mean accumulates its groups. -/
def addToGroup (k : ℤ) (v : ℚ) : List (ℤ × ℚ × ℕ) → List (ℤ × ℚ × ℕ)
  | [] => [(k, v, 1)]
  | g :: gs =>
    if g.1 = k then (k, v + g.2.1, g.2.2 + 1) :: gs
    else g :: addToGroup k v gs

/-- Accumulate all (key, value) pairs into per-key (sum, count) groups. -/
def accumGroups : List (ℤ × ℚ) → List (ℤ × ℚ × ℕ)
  | [] => []
  | p :: ps => addToGroup p.1 p.2 (accumGroups ps)

instance : DecidableRel (fun a b : ℤ × ℚ => a.1 ≤ b.1) :=
  fun a b => inferInstanceAs (Decidable (a.1 ≤ b.1))

/-- pandas `groupby(..., sort=True)` emits its groups with sorted keys. -/
def keySort (s : List (ℤ × ℚ)) : List (ℤ × ℚ) :=
  List.insertionSort (fun a b => a.1 ≤ b.1) s

/-- The value a Series holds at label `k` (`none` when the label is
absent). -/
def seriesGet (s : List (ℤ × ℚ)) (k : ℤ) : Option ℚ :=
  (s.find? (fun p => p.1 = k)).map Prod.snd

/-- `df.groupby(key)[col].mean()`: accumulate per-key sums and counts,
divide, and emit with sorted keys. -/
def groupby_mean (key : Obs → ℤ) (val : Obs → ℚ) (rows : List Obs) :
    List (ℤ × ℚ) :=
  keySort ((accumGroups (rows.map (fun r => (key r, val r)))).map
    (fun g => (g.1, g.2.1 / (g.2.2 : ℚ))))

/-- `monthly_average` (lines 98-100):
`df.groupby(df.index.month)[var].mean()`. -/
def monthly_average (rows : List Obs) (var : Obs → ℚ) : List (ℤ × ℚ) :=
  groupby_mean (fun r => (r.ts.month : ℤ)) var rows

/-- The seasonal aggregate of `main` (lines 120-124): the `season` column
is assigned as `df.index.month.map(get_season)`, then
`df.groupby('season')['wind_speed'].mean()`; composing the two, the
grouping key of a row is `get_season` of its month. -/
def seasonal_average (rows : List Obs) : List (ℤ × ℚ) :=
  groupby_mean (fun r => get_season (r.ts.month : ℤ)) Obs.wind_speed rows

/-- The diurnal aggregate of `main` (lines 140-144): the `hour` column is
assigned as `df.index.hour`, then `df.groupby('hour')['wind_speed'].mean()`. -/
def hourly_average (rows : List Obs) : List (ℤ × ℚ) :=
  groupby_mean (fun r => (r.ts.hour : ℤ)) Obs.wind_speed rows

/-- Modelled from the spec: the brute-force reference grouping — the
arithmetic mean of the values of exactly the rows whose key is `k`, and
no entry at all for a key with zero rows. -/
def spec_group_mean (key : Obs → ℤ) (val : Obs → ℚ) (rows : List Obs)
    (k : ℤ) : Option ℚ :=
  let g := rows.filter (fun r => key r = k)
  if g.length = 0 then none else some ((g.map val).sum / (g.length : ℚ))

/-- Helper: how `find?` reads through `addToGroup`. -/
theorem find?_addToGroup (k0 : ℤ) (v0 : ℚ) :
    ∀ (gs : List (ℤ × ℚ × ℕ)) (k : ℤ),
      (addToGroup k0 v0 gs).find? (fun g => g.1 = k) =
        if k0 = k then
          (match gs.find? (fun g => g.1 = k) with
           | none => some (k, v0, 1)
           | some g => some (k, v0 + g.2.1, g.2.2 + 1))
        else gs.find? (fun g => g.1 = k) := by
  intro gs
  induction gs with
  | nil =>
    intro k
    by_cases h : k0 = k <;> simp [addToGroup, List.find?, h]
  | cons g gs ih =>
    intro k
    by_cases hg : g.1 = k0
    · simp only [addToGroup, if_pos hg]
      by_cases hk : k0 = k
      · subst hk
        have : g.1 = k0 := hg
        simp [List.find?_cons, this]
      · have hgk : ¬ g.1 = k := by rw [hg]; exact hk
        simp [List.find?_cons, hgk, hk]
    · simp only [addToGroup, if_neg hg]
      by_cases hgk : g.1 = k
      · have hk : ¬ k0 = k := by intro e; exact hg (by rw [hgk, e])
        simp [List.find?_cons, hgk, hk]
      · simp [List.find?_cons, hgk, ih k]

/-- Helper: `find?` on the accumulated groups returns exactly the brute
sum and count of the pairs carrying that key. -/
theorem find?_accumGroups :
    ∀ (ps : List (ℤ × ℚ)) (k : ℤ),
      (accumGroups ps).find? (fun g => g.1 = k) =
        if (ps.filter (fun p => p.1 = k)).length = 0 then none
        else some (k, ((ps.filter (fun p => p.1 = k)).map Prod.snd).sum,
                      (ps.filter (fun p => p.1 = k)).length) := by
  intro ps
  induction ps with
  | nil => intro k; simp [accumGroups]
  | cons p ps ih =>
    intro k
    by_cases hp : p.1 = k
    · by_cases h0 : (ps.filter (fun p => p.1 = k)).length = 0
      · have hnil : ps.filter (fun p => p.1 = k) = [] :=
          List.length_eq_zero.mp h0
        simp [accumGroups, find?_addToGroup, ih k, List.filter_cons,
          hp, h0, hnil]
      · simp [accumGroups, find?_addToGroup, ih k, List.filter_cons,
          hp, h0]
    · have hfc : (p :: ps).filter (fun q => q.1 = k) =
          ps.filter (fun q => q.1 = k) := by
        rw [List.filter_cons]
        simp [hp]
      simp only [accumGroups, find?_addToGroup, if_neg hp, ih k, hfc]

/-- Helper: `find?` by key commutes with a key-preserving map. -/
theorem find?_map_divide (k : ℤ) :
    ∀ (l : List (ℤ × ℚ × ℕ)),
      ((l.map (fun g => (g.1, g.2.1 / (g.2.2 : ℚ)))).find?
          (fun p => p.1 = k)) =
        (l.find? (fun g => g.1 = k)).map
          (fun g => (g.1, g.2.1 / (g.2.2 : ℚ))) := by
  intro l
  induction l with
  | nil => simp
  | cons g l ih =>
    by_cases hg : g.1 = k <;> simp [List.find?_cons, hg, ih]

/-- Helper: `addToGroup` preserves key nodup-ness. -/
theorem nodup_keys_addToGroup (k0 : ℤ) (v0 : ℚ) :
    ∀ gs : List (ℤ × ℚ × ℕ),
      (gs.map (fun g => g.1)).Nodup →
      ((addToGroup k0 v0 gs).map (fun g => g.1)).Nodup := by
  intro gs
  induction gs with
  | nil => intro _; simp [addToGroup]
  | cons g gs ih =>
    intro hnd
    simp only [List.map_cons, List.nodup_cons] at hnd
    by_cases hg : g.1 = k0
    · have he : addToGroup k0 v0 (g :: gs) = (k0, v0 + g.2.1, g.2.2 + 1) :: gs := by
        unfold addToGroup; rw [if_pos hg]
      rw [he, List.map_cons, List.nodup_cons]
      exact ⟨by rw [← hg]; exact hnd.1, hnd.2⟩
    · have hmem : ∀ k, k ≠ k0 →
          (k ∈ (addToGroup k0 v0 gs).map (fun g => g.1) ↔
            k ∈ gs.map (fun g => g.1)) := by
        intro k hk
        clear ih hnd
        induction gs with
        | nil => simp [addToGroup, hk]
        | cons q qs ihq =>
          by_cases hq : q.1 = k0
          · have he : addToGroup k0 v0 (q :: qs) =
                (k0, v0 + q.2.1, q.2.2 + 1) :: qs := by
              unfold addToGroup; rw [if_pos hq]
            rw [he, List.map_cons, List.map_cons, List.mem_cons,
              List.mem_cons, hq]
          · have he : addToGroup k0 v0 (q :: qs) =
                q :: addToGroup k0 v0 qs := by
              simp only [addToGroup]; rw [if_neg hq]
            rw [he, List.map_cons, List.map_cons, List.mem_cons,
              List.mem_cons, ihq]
      have he : addToGroup k0 v0 (g :: gs) = g :: addToGroup k0 v0 gs := by
        simp only [addToGroup]; rw [if_neg hg]
      rw [he, List.map_cons, List.nodup_cons]
      exact ⟨fun hm => hnd.1 ((hmem g.1 hg).mp hm), ih hnd.2⟩

/-- Helper: the accumulated groups have pairwise distinct keys. -/
theorem nodup_keys_accumGroups :
    ∀ ps : List (ℤ × ℚ), ((accumGroups ps).map (fun g => g.1)).Nodup := by
  intro ps
  induction ps with
  | nil => simp [accumGroups]
  | cons p ps ih => exact nodup_keys_addToGroup p.1 p.2 _ ih

/-- Helper: on a list with pairwise distinct keys, `find?` by key is
invariant under the sorting permutation. -/
theorem find?_keySort (s : List (ℤ × ℚ)) (k : ℤ)
    (hnd : (s.map Prod.fst).Nodup) :
    (keySort s).find? (fun p => p.1 = k) = s.find? (fun p => p.1 = k) := by
  have hperm : (keySort s).Perm s := List.perm_insertionSort _ s
  have hnd' : ((keySort s).map Prod.fst).Nodup :=
    ((hperm.map Prod.fst).nodup_iff).mpr hnd
  rcases h : s.find? (fun p => p.1 = k) with _ | q
  · rw [h]
    rw [List.find?_eq_none] at h ⊢
    intro x hx
    exact h x (hperm.mem_iff.mp hx)
  · have hq : q ∈ s ∧ q.1 = k :=
      ⟨List.mem_of_find?_eq_some h, by
        have hfs := List.find?_some h
        exact of_decide_eq_true hfs⟩
    have hq' : q ∈ keySort s := hperm.mem_iff.mpr hq.1
    rcases h2 : (keySort s).find? (fun p => p.1 = k) with _ | q'
    · exfalso
      rw [List.find?_eq_none] at h2
      have hcon := h2 q hq'
      rw [hq.2] at hcon
      exact hcon (by simp)
    · have hq2 : q' ∈ s ∧ q'.1 = k :=
        ⟨hperm.mem_iff.mp (List.mem_of_find?_eq_some h2), by
          have hfs2 := List.find?_some h2
          exact of_decide_eq_true hfs2⟩
      have hqq : q' = q :=
        List.inj_on_of_nodup_map hnd hq2.1 hq.1 (by rw [hq2.2, hq.2])
      rw [h, h2, hqq]

/-- Helper: every groupby-mean of the script agrees with the brute-force
reference mean at every key. -/
theorem groupby_mean_eq_spec (key : Obs → ℤ) (val : Obs → ℚ)
    (rows : List Obs) (k : ℤ) :
    seriesGet (groupby_mean key val rows) k = spec_group_mean key val rows k := by
  unfold seriesGet groupby_mean
  rw [find?_keySort _ k (by
    simpa [List.map_map, Function.comp] using
      nodup_keys_accumGroups (rows.map (fun r => (key r, val r))))]
  rw [find?_map_divide, find?_accumGroups]
  have hfil : (rows.map (fun r => (key r, val r))).filter
      (fun p => p.1 = k) =
        (rows.filter (fun r => key r = k)).map (fun r => (key r, val r)) := by
    rw [List.filter_map]
    rfl
  rw [hfil]
  unfold spec_group_mean
  by_cases h0 : (rows.filter (fun r => key r = k)).length = 0
  · simp [h0]
  · simp only [List.length_map, h0, if_neg h0, Option.map_some,
      List.map_map]
    rfl

/-- Claim C4: the monthly, seasonal and hourly aggregates each map every
key to the arithmetic mean of the wind-speed values of exactly the rows
in that bucket (brute-force reference grouping), and a month with zero
rows is absent from the monthly result. -/
theorem C4_aggregates_eq_reference (rows : List Obs) (k : ℤ) :
    seriesGet (monthly_average rows Obs.wind_speed) k
      = spec_group_mean (fun r => (r.ts.month : ℤ)) Obs.wind_speed rows k ∧
    seriesGet (seasonal_average rows) k
      = spec_group_mean (fun r => get_season (r.ts.month : ℤ))
          Obs.wind_speed rows k ∧
    seriesGet (hourly_average rows) k
      = spec_group_mean (fun r => (r.ts.hour : ℤ)) Obs.wind_speed rows k ∧
    ((∀ r ∈ rows, (r.ts.month : ℤ) ≠ k) →
      seriesGet (monthly_average rows Obs.wind_speed) k = none) := by
  refine ⟨groupby_mean_eq_spec _ _ rows k, groupby_mean_eq_spec _ _ rows k,
    groupby_mean_eq_spec _ _ rows k, ?_⟩
  intro hall
  unfold monthly_average
  rw [groupby_mean_eq_spec]
  unfold spec_group_mean
  have : rows.filter (fun r => (r.ts.month : ℤ) = k) = [] := by
    rw [List.filter_eq_nil_iff]
    intro r hr
    simpa using hall r hr
  simp [this]

/-- Witness for C4: two January observations with wind speeds 5 and 0
average to 5/2 under the monthly aggregate, and an empty month is
absent. -/
theorem C4_aggregates_eq_reference_witness :
    seriesGet (monthly_average
      [Obs.mk ⟨2024, 1, 1, 0, 0, 0⟩ 3 4 5,
       Obs.mk ⟨2024, 1, 1, 1, 0, 0⟩ 0 0 0] Obs.wind_speed) 2 = none :=
  (C4_aggregates_eq_reference
      [Obs.mk ⟨2024, 1, 1, 0, 0, 0⟩ 3 4 5,
       Obs.mk ⟨2024, 1, 1, 1, 0, 0⟩ 0 0 0] 2).2.2.2 (by decide)

/-- Number of days of a calendar month, Gregorian leap rule. -/
def daysInMonth (y m : ℕ) : ℕ :=
  if m = 2 then (if (y % 4 = 0 ∧ y % 100 ≠ 0) ∨ y % 400 = 0 then 29 else 28)
  else if m = 4 ∨ m = 6 ∨ m = 9 ∨ m = 11 then 30 else 31

theorem daysInMonth_le (y m : ℕ) : daysInMonth y m ≤ 31 := by
  unfold daysInMonth; split_ifs <;> omega

theorem one_le_daysInMonth (y m : ℕ) : 1 ≤ daysInMonth y m := by
  unfold daysInMonth; split_ifs <;> omega

/-- A well-formed calendar date (every pandas Timestamp is one). -/
def Date.Valid (d : Date) : Prop :=
  1 ≤ d.month ∧ d.month ≤ 12 ∧ 1 ≤ d.day ∧ d.day ≤ daysInMonth d.year d.month

instance : DecidablePred Date.Valid := fun d => by
  unfold Date.Valid; exact inferInstance

/-- The next calendar day. -/
def Date.succ (d : Date) : Date :=
  if d.day < daysInMonth d.year d.month then ⟨d.year, d.month, d.day + 1⟩
  else if d.month < 12 then ⟨d.year, d.month + 1, 1⟩
  else ⟨d.year + 1, 1, 1⟩

/-- A linear measure of dates, strictly monotone along the calendar order
on valid dates; only used as recursion fuel. -/
def Date.idx (d : Date) : ℕ := 372 * d.year + 31 * d.month + d.day

theorem Date.le_refl (d : Date) : Date.le d d := by
  unfold Date.le; omega

theorem Date.le_trans {a b c : Date} (h1 : Date.le a b) (h2 : Date.le b c) :
    Date.le a c := by
  unfold Date.le at *; omega

theorem Date.le_of_lt {a b : Date} (h : Date.lt a b) : Date.le a b := by
  unfold Date.lt at h; unfold Date.le; omega

theorem Date.lt_of_lt_of_le {a b c : Date} (h1 : Date.lt a b)
    (h2 : Date.le b c) : Date.lt a c := by
  unfold Date.lt at *; unfold Date.le at h2; omega

theorem Date.le_of_not_lt {a b : Date} (h : ¬ Date.lt a b) : Date.le b a := by
  unfold Date.lt at h; unfold Date.le; omega

theorem Date.ne_of_lt {a b : Date} (h : Date.lt a b) : a ≠ b := by
  intro he
  subst he
  unfold Date.lt at h
  omega

theorem Date.lt_of_le_of_ne {a b : Date} (h : Date.le a b) (hne : a ≠ b) :
    Date.lt a b := by
  obtain ⟨ay, am, ad⟩ := a
  obtain ⟨cy, cm, cd⟩ := b
  simp only [ne_eq, Date.mk.injEq] at hne
  unfold Date.le at h
  unfold Date.lt
  dsimp only at h ⊢
  omega

theorem Date.succ_valid {d : Date} (h : d.Valid) : d.succ.Valid := by
  have h5 := one_le_daysInMonth (d.year + 1) 1
  have h6 := one_le_daysInMonth d.year (d.month + 1)
  obtain ⟨h1, h2, h3, h4⟩ := h
  unfold Date.succ
  split_ifs with hd hm <;> (unfold Date.Valid; dsimp only; omega)

theorem Date.lt_succ {d : Date} : Date.lt d d.succ := by
  unfold Date.succ
  split_ifs with hd hm <;> (unfold Date.lt; dsimp only; omega)

theorem Date.idx_le_of_le {a b : Date} (ha : a.Valid) (hb : b.Valid)
    (h : Date.le a b) : a.idx ≤ b.idx := by
  obtain ⟨ha1, ha2, ha3, ha4⟩ := ha
  obtain ⟨hb1, hb2, hb3, hb4⟩ := hb
  have h31a := daysInMonth_le a.year a.month
  have h31b := daysInMonth_le b.year b.month
  unfold Date.le at h
  unfold Date.idx
  omega

theorem Date.idx_lt_of_lt {a b : Date} (ha : a.Valid) (hb : b.Valid)
    (h : Date.lt a b) : a.idx < b.idx := by
  obtain ⟨ha1, ha2, ha3, ha4⟩ := ha
  obtain ⟨hb1, hb2, hb3, hb4⟩ := hb
  have h31a := daysInMonth_le a.year a.month
  have h31b := daysInMonth_le b.year b.month
  unfold Date.lt at h
  unfold Date.idx
  omega

/-- The key successor property: on valid dates nothing lies strictly
between a date and its successor. -/
theorem Date.succ_le_of_lt {a b : Date} (ha : a.Valid) (hb : b.Valid)
    (h : Date.lt a b) : Date.le a.succ b := by
  obtain ⟨ha1, ha2, ha3, ha4⟩ := ha
  obtain ⟨hb1, hb2, hb3, hb4⟩ := hb
  unfold Date.lt at h
  rcases h with hy | ⟨hy, hm | ⟨hm, hd⟩⟩
  · unfold Date.succ
    split_ifs <;> (unfold Date.le; dsimp only; omega)
  · unfold Date.succ
    split_ifs <;> (unfold Date.le; dsimp only; omega)
  · have hD : daysInMonth a.year a.month = daysInMonth b.year b.month := by
      rw [hy, hm]
    unfold Date.succ
    split_ifs <;> (unfold Date.le; dsimp only; omega)

/-- The daily bins of the resampler: fuel-indexed enumeration of calendar
days from `a` up to `b`. -/
def dateRangeAux : ℕ → Date → Date → List Date
  | 0, _, _ => []
  | n + 1, a, b => if Date.le a b then a :: dateRangeAux n a.succ b else []

/-- All calendar days from `a` to `b` inclusive: the bins that pandas
`resample('D')` generates between the first and last observed day. -/
def dateRange (a b : Date) : List Date :=
  dateRangeAux (b.idx + 1 - a.idx) a b

/-- Soundness of the day enumeration: entries are valid days of the
closed interval, listed in strictly increasing calendar order. -/
theorem dateRangeAux_sound :
    ∀ (n : ℕ) (a b : Date), a.Valid →
      (∀ d ∈ dateRangeAux n a b, d.Valid ∧ Date.le a d ∧ Date.le d b) ∧
      (dateRangeAux n a b).Pairwise Date.lt := by
  intro n
  induction n with
  | zero => intro a b _; simp [dateRangeAux]
  | succ m ih =>
    intro a b ha
    unfold dateRangeAux
    split_ifs with hab
    · obtain ⟨ihmem, ihpw⟩ := ih a.succ b (Date.succ_valid ha)
      constructor
      · intro d hd
        rcases List.mem_cons.mp hd with rfl | hd
        · exact ⟨ha, Date.le_refl _, hab⟩
        · obtain ⟨hdv, hda, hdb⟩ := ihmem d hd
          exact ⟨hdv, Date.le_trans (Date.le_of_lt Date.lt_succ) hda, hdb⟩
      · refine List.pairwise_cons.mpr ⟨?_, ihpw⟩
        intro d hd
        exact Date.lt_of_lt_of_le Date.lt_succ (ihmem d hd).2.1
    · simp

/-- Completeness of the day enumeration: with enough fuel, every valid
day of the closed interval appears. -/
theorem dateRangeAux_complete :
    ∀ (n : ℕ) (a b d : Date), a.Valid → b.Valid → d.Valid →
      b.idx < a.idx + n → Date.le a d → Date.le d b →
      d ∈ dateRangeAux n a b := by
  intro n
  induction n with
  | zero =>
    intro a b d ha hb hd hfuel had hdb
    have h1 := Date.idx_le_of_le ha hd had
    have h2 := Date.idx_le_of_le hd hb hdb
    omega
  | succ m ih =>
    intro a b d ha hb hd hfuel had hdb
    have hab : Date.le a b := Date.le_trans had hdb
    unfold dateRangeAux
    rw [if_pos hab]
    by_cases hda : d = a
    · exact hda ▸ List.mem_cons_self _ _
    · have halt : Date.lt a d := Date.lt_of_le_of_ne had (fun e => hda e.symm)
      have hsle : Date.le a.succ d := Date.succ_le_of_lt ha hd halt
      have hidx : a.idx < a.succ.idx :=
        Date.idx_lt_of_lt ha (Date.succ_valid ha) Date.lt_succ
      exact List.mem_cons_of_mem _
        (ih a.succ b d (Date.succ_valid ha) hb hd (by omega) hsle hdb)

theorem mem_dateRange {a b d : Date} (ha : a.Valid) (hb : b.Valid)
    (hd : d.Valid) (had : Date.le a d) (hdb : Date.le d b) :
    d ∈ dateRange a b := by
  have h1 := Date.idx_le_of_le ha hd had
  have h2 := Date.idx_le_of_le hd hb hdb
  exact dateRangeAux_complete _ a b d ha hb hd (by omega) had hdb

theorem dateRange_sound {a b : Date} (ha : a.Valid) :
    (∀ d ∈ dateRange a b, d.Valid ∧ Date.le a d ∧ Date.le d b) ∧
    (dateRange a b).Pairwise Date.lt :=
  dateRangeAux_sound _ a b ha

/-- Earliest date: fold of the pairwise earlier-date choice, anchoring
the first daily bin of the resampler. -/
def minDateFold (d : Date) (ds : List Date) : Date :=
  ds.foldl (fun acc x => if Date.lt x acc then x else acc) d

/-- Latest date: anchors the last daily bin of the resampler. -/
def maxDateFold (d : Date) (ds : List Date) : Date :=
  ds.foldl (fun acc x => if Date.lt acc x then x else acc) d

theorem minDateFold_le :
    ∀ (ds : List Date) (d : Date),
      Date.le (minDateFold d ds) d ∧
      ∀ x ∈ ds, Date.le (minDateFold d ds) x := by
  intro ds
  induction ds with
  | nil => intro d; exact ⟨Date.le_refl d, by simp⟩
  | cons x ds ih =>
    intro d
    have hstep : minDateFold d (x :: ds) =
        minDateFold (if Date.lt x d then x else d) ds := rfl
    obtain ⟨ih1, ih2⟩ := ih (if Date.lt x d then x else d)
    rw [hstep]
    have hfd : Date.le (if Date.lt x d then x else d) d := by
      split_ifs with hxd
      · exact Date.le_of_lt hxd
      · exact Date.le_refl d
    have hfx : Date.le (if Date.lt x d then x else d) x := by
      split_ifs with hxd
      · exact Date.le_refl x
      · exact Date.le_of_not_lt hxd
    refine ⟨Date.le_trans ih1 hfd, ?_⟩
    intro y hy
    rcases List.mem_cons.mp hy with rfl | hy
    · exact Date.le_trans ih1 hfx
    · exact ih2 y hy

theorem minDateFold_mem :
    ∀ (ds : List Date) (d : Date),
      minDateFold d ds = d ∨ minDateFold d ds ∈ ds := by
  intro ds
  induction ds with
  | nil => intro d; exact Or.inl rfl
  | cons x ds ih =>
    intro d
    have hstep : minDateFold d (x :: ds) =
        minDateFold (if Date.lt x d then x else d) ds := rfl
    rw [hstep]
    rcases ih (if Date.lt x d then x else d) with h | h
    · rw [h]
      split_ifs
      · exact Or.inr (List.mem_cons_self _ _)
      · exact Or.inl rfl
    · exact Or.inr (List.mem_cons_of_mem _ h)

theorem maxDateFold_ge :
    ∀ (ds : List Date) (d : Date),
      Date.le d (maxDateFold d ds) ∧
      ∀ x ∈ ds, Date.le x (maxDateFold d ds) := by
  intro ds
  induction ds with
  | nil => intro d; exact ⟨Date.le_refl d, by simp⟩
  | cons x ds ih =>
    intro d
    have hstep : maxDateFold d (x :: ds) =
        maxDateFold (if Date.lt d x then x else d) ds := rfl
    obtain ⟨ih1, ih2⟩ := ih (if Date.lt d x then x else d)
    rw [hstep]
    have hfd : Date.le d (if Date.lt d x then x else d) := by
      split_ifs with hdx
      · exact Date.le_of_lt hdx
      · exact Date.le_refl d
    have hfx : Date.le x (if Date.lt d x then x else d) := by
      split_ifs with hdx
      · exact Date.le_refl x
      · exact Date.le_of_not_lt hdx
    refine ⟨Date.le_trans hfd ih1, ?_⟩
    intro y hy
    rcases List.mem_cons.mp hy with rfl | hy
    · exact Date.le_trans hfx ih1
    · exact ih2 y hy

theorem maxDateFold_mem :
    ∀ (ds : List Date) (d : Date),
      maxDateFold d ds = d ∨ maxDateFold d ds ∈ ds := by
  intro ds
  induction ds with
  | nil => intro d; exact Or.inl rfl
  | cons x ds ih =>
    intro d
    have hstep : maxDateFold d (x :: ds) =
        maxDateFold (if Date.lt d x then x else d) ds := rfl
    rw [hstep]
    rcases ih (if Date.lt d x then x else d) with h | h
    · rw [h]
      split_ifs
      · exact Or.inr (List.mem_cons_self _ _)
      · exact Or.inl rfl
    · exact Or.inr (List.mem_cons_of_mem _ h)

/-- One row of the daily table `df.resample('D').mean(numeric_only=True)`:
the per-day mean of each numeric column. -/
structure DailyRow where
  u10m : ℚ
  v10m : ℚ
  wind_speed : ℚ
deriving DecidableEq, Repr

/-- The rows falling into the daily bin of day `d` (the date portion of
the timestamp decides the bucket). -/
def dayGroup (rows : List Obs) (d : Date) : List Obs :=
  rows.filter (fun o => o.ts.date = d)

/-- Mean of one numeric column over a group. -/
def colMean (col : Obs → ℚ) (g : List Obs) : ℚ :=
  (g.map col).sum / (g.length : ℚ)

/-- The aggregate of one daily bin: the mean of every numeric column over
the rows of that day, or a missing (all-NaN) row when the bin is empty. -/
def dailyAgg (rows : List Obs) (d : Date) : Option DailyRow :=
  if (dayGroup rows d).isEmpty then none
  else some ⟨colMean Obs.u10m (dayGroup rows d),
             colMean Obs.v10m (dayGroup rows d),
             colMean Obs.wind_speed (dayGroup rows d)⟩

/-- `df.resample('D').mean(numeric_only=True)` (lines 130-131): pandas
generates one daily bin per calendar day from the first through the last
day present in the index — gap days included — and aggregates each bin;
an empty bin yields a NaN row. -/
def resampleDaily : List Obs → List (Date × Option DailyRow)
  | [] => []
  | r :: rs =>
    (dateRange (minDateFold r.ts.date (rs.map (fun o => o.ts.date)))
               (maxDateFold r.ts.date (rs.map (fun o => o.ts.date)))).map
      (fun d => (d, dailyAgg (r :: rs) d))

/-- Counterexample to claim C6 as stated: with observations on Jan 1 and
Jan 3 only, the daily table contains a row for Jan 2 — a calendar day
with no observations — because `resample('D')` generates the full
contiguous range of daily bins. -/
theorem C6_counterexample :
    ¬ (∀ p ∈ resampleDaily
          [Obs.mk ⟨2024, 1, 1, 0, 0, 0⟩ 3 4 5,
           Obs.mk ⟨2024, 1, 3, 0, 0, 0⟩ 0 0 0],
        ∃ o ∈ [Obs.mk ⟨2024, 1, 1, 0, 0, 0⟩ 3 4 5,
               Obs.mk ⟨2024, 1, 3, 0, 0, 0⟩ 0 0 0],
          (Obs.ts o).date = p.1) := by
  decide

/-- Claim C6 (amended): the daily resample buckets rows by the date
portion of the timestamp and aggregates each bin to the per-day mean of
every numeric column; it produces exactly one row (strictly increasing,
duplicate-free keys) for EVERY calendar day from the first through the
last observed day — a day of that span with no observations gets a row
with a missing (NaN) value, rather than being absent. -/
theorem C6_resampleDaily_amended (r : Obs) (rs : List Obs)
    (hv : ∀ o ∈ r :: rs, (Obs.ts o).date.Valid) :
    ((resampleDaily (r :: rs)).map Prod.fst).Pairwise Date.lt ∧
    (∀ o ∈ r :: rs,
      (Obs.ts o).date ∈ (resampleDaily (r :: rs)).map Prod.fst) ∧
    (∀ d : Date, d.Valid →
      (∃ o1 ∈ r :: rs, Date.le (Obs.ts o1).date d) →
      (∃ o2 ∈ r :: rs, Date.le d (Obs.ts o2).date) →
      d ∈ (resampleDaily (r :: rs)).map Prod.fst) ∧
    (∀ d ∈ (resampleDaily (r :: rs)).map Prod.fst,
      (∃ o ∈ r :: rs, Date.le (Obs.ts o).date d) ∧
      (∃ o ∈ r :: rs, Date.le d (Obs.ts o).date)) ∧
    (∀ p ∈ resampleDaily (r :: rs), p.2 = dailyAgg (r :: rs) p.1) ∧
    (∀ p ∈ resampleDaily (r :: rs),
      (p.2 = none ↔ dayGroup (r :: rs) p.1 = [])) := by
  have hva : (minDateFold r.ts.date (rs.map (fun o => o.ts.date))).Valid := by
    rcases minDateFold_mem (rs.map (fun o => o.ts.date)) r.ts.date with h | h
    · rw [h]; exact hv r (List.mem_cons_self _ _)
    · rcases List.mem_map.mp h with ⟨o, ho, he⟩
      rw [← he]; exact hv o (List.mem_cons_of_mem _ ho)
  have hvb : (maxDateFold r.ts.date (rs.map (fun o => o.ts.date))).Valid := by
    rcases maxDateFold_mem (rs.map (fun o => o.ts.date)) r.ts.date with h | h
    · rw [h]; exact hv r (List.mem_cons_self _ _)
    · rcases List.mem_map.mp h with ⟨o, ho, he⟩
      rw [← he]; exact hv o (List.mem_cons_of_mem _ ho)
  have hmin : ∀ o ∈ r :: rs,
      Date.le (minDateFold r.ts.date (rs.map (fun o => o.ts.date)))
        (Obs.ts o).date := by
    intro o ho
    rcases List.mem_cons.mp ho with rfl | ho
    · exact (minDateFold_le (rs.map (fun o => o.ts.date)) _).1
    · exact (minDateFold_le (rs.map (fun o => o.ts.date)) r.ts.date).2 _
        (List.mem_map_of_mem _ ho)
  have hmax : ∀ o ∈ r :: rs,
      Date.le (Obs.ts o).date
        (maxDateFold r.ts.date (rs.map (fun o => o.ts.date))) := by
    intro o ho
    rcases List.mem_cons.mp ho with rfl | ho
    · exact (maxDateFold_ge (rs.map (fun o => o.ts.date)) _).1
    · exact (maxDateFold_ge (rs.map (fun o => o.ts.date)) r.ts.date).2 _
        (List.mem_map_of_mem _ ho)
  have hkeys : (resampleDaily (r :: rs)).map Prod.fst =
      dateRange (minDateFold r.ts.date (rs.map (fun o => o.ts.date)))
                (maxDateFold r.ts.date (rs.map (fun o => o.ts.date))) := by
    show (List.map _ _).map Prod.fst = _
    rw [List.map_map]
    exact List.map_id _
  refine ⟨?_, ?_, ?_, ?_, ?_, ?_⟩
  · rw [hkeys]
    exact (dateRange_sound hva).2
  · intro o ho
    rw [hkeys]
    exact mem_dateRange hva hvb (hv o ho) (hmin o ho) (hmax o ho)
  · rintro d hd ⟨o1, ho1, h1⟩ ⟨o2, ho2, h2⟩
    rw [hkeys]
    exact mem_dateRange hva hvb hd (Date.le_trans (hmin o1 ho1) h1)
      (Date.le_trans h2 (hmax o2 ho2))
  · intro d hdm
    rw [hkeys] at hdm
    obtain ⟨_, hda, hdb⟩ := (dateRange_sound hva).1 d hdm
    constructor
    · rcases minDateFold_mem (rs.map (fun o => o.ts.date)) r.ts.date with h | h
      · exact ⟨r, List.mem_cons_self _ _, by rw [← h]; exact hda⟩
      · rcases List.mem_map.mp h with ⟨o, ho, he⟩
        exact ⟨o, List.mem_cons_of_mem _ ho, by rw [he]; exact hda⟩
    · rcases maxDateFold_mem (rs.map (fun o => o.ts.date)) r.ts.date with h | h
      · exact ⟨r, List.mem_cons_self _ _, by rw [← h]; exact hdb⟩
      · rcases List.mem_map.mp h with ⟨o, ho, he⟩
        exact ⟨o, List.mem_cons_of_mem _ ho, by rw [he]; exact hdb⟩
  · intro p hp
    rcases List.mem_map.mp hp with ⟨d, _, rfl⟩
    rfl
  · intro p hp
    rcases List.mem_map.mp hp with ⟨d, _, rfl⟩
    show dailyAgg (r :: rs) d = none ↔ _
    unfold dailyAgg
    split_ifs with hemp
    · simpa [List.isEmpty_iff] using hemp
    · simp only [reduceCtorEq, false_iff]
      intro hc
      exact hemp (by rw [List.isEmpty_iff]; exact hc)

/-- Witness for amended C6 at a single observation. -/
theorem C6_resampleDaily_amended_witness :
    (Obs.ts (Obs.mk ⟨2024, 1, 1, 0, 0, 0⟩ 3 4 5)).date ∈
      (resampleDaily [Obs.mk ⟨2024, 1, 1, 0, 0, 0⟩ 3 4 5]).map Prod.fst :=
  (C6_resampleDaily_amended (Obs.mk ⟨2024, 1, 1, 0, 0, 0⟩ 3 4 5) []
    (by decide)).2.1 _ (by decide)

/-- `df_daily['wind_speed']`: the wind-speed column of the daily table,
keeping the NaN rows of the empty bins. -/
def dailyWindSeries (t : List (Date × Option DailyRow)) :
    List (Date × Option ℚ) :=
  t.map (fun p => (p.1, p.2.map DailyRow.wind_speed))

/-- One candidate entry of `nlargest`: its position in the Series, its
day label and its (non-missing) value. -/
structure Entry where
  pos : ℕ
  day : Date
  val : ℚ
deriving DecidableEq, Repr

/-- The indexed non-NaN entry, if any, of one labelled cell. -/
def entryOf (q : ℕ × Date × Option ℚ) : Option Entry :=
  q.2.2.map (fun v => Entry.mk q.1 q.2.1 v)

/-- The non-NaN entries of a Series with their positions: `nlargest`
silently drops NaN. -/
def someEntries (s : List (Date × Option ℚ)) : List Entry :=
  (List.enum s).filterMap entryOf

/-- The comparison `nlargest` ranks by: larger value first. -/
def valDesc (a b : Entry) : Prop := b.val ≤ a.val

instance : DecidableRel valDesc := fun a b =>
  inferInstanceAs (Decidable (b.val ≤ a.val))

/-- `Series.nlargest(n)` with the default `keep='first'` (line 134): the
n largest non-NaN entries, value-descending, entries of equal value kept
in order of appearance. -/
def nlargestIdx (n : ℕ) (s : List (Date × Option ℚ)) : List Entry :=
  (List.insertionSort valDesc (someEntries s)).take n

/-- The labelled result of `nlargest`, with positions dropped. -/
def nlargest (n : ℕ) (s : List (Date × Option ℚ)) : List (Date × ℚ) :=
  (nlargestIdx n s).map (fun e => (e.day, e.val))

/-- The strict ranking order realised by a stable descending sort:
larger value first, ties resolved by original position. -/
def entryOrder (a b : Entry) : Prop :=
  b.val < a.val ∨ (a.val = b.val ∧ a.pos < b.pos)

/-- Helper: inserting an entry whose position precedes everything in an
already-ranked list preserves the ranking order. -/
theorem orderedInsert_entryOrder (x : Entry) :
    ∀ l : List Entry, l.Pairwise entryOrder → (∀ y ∈ l, x.pos < y.pos) →
      (List.orderedInsert valDesc x l).Pairwise entryOrder := by
  intro l
  induction l with
  | nil => intro _ _; simp [List.orderedInsert, List.pairwise_singleton]
  | cons y ys ih =>
    intro hpw hpos
    rw [List.orderedInsert]
    split_ifs with hxy
    · refine List.pairwise_cons.mpr ⟨?_, hpw⟩
      intro z hz
      rcases List.mem_cons.mp hz with rfl | hz
      · rcases lt_or_eq_of_le hxy with h | h
        · exact Or.inl h
        · exact Or.inr ⟨h.symm, hpos _ (List.mem_cons_self _ _)⟩
      · have hyz := (List.pairwise_cons.mp hpw).1 z hz
        rcases hyz with h | ⟨he, _⟩
        · exact Or.inl (lt_of_lt_of_le h hxy)
        · rcases lt_or_eq_of_le hxy with h2 | h2
          · exact Or.inl (he ▸ h2)
          · exact Or.inr ⟨by rw [← h2]; exact he,
              hpos z (List.mem_cons_of_mem _ hz)⟩
    · have hpw' := List.pairwise_cons.mp hpw
      refine List.pairwise_cons.mpr
        ⟨?_, ih hpw'.2 (fun z hz => hpos z (List.mem_cons_of_mem _ hz))⟩
      intro z hz
      rcases (List.mem_orderedInsert valDesc).mp hz with rfl | hz
      · exact Or.inl (not_le.mp hxy)
      · exact hpw'.1 z hz

/-- Helper: the descending insertion sort of entries listed in position
order is ranked: values non-increasing, ties in position order. -/
theorem insertionSort_entryOrder :
    ∀ l : List Entry, l.Pairwise (fun a b => a.pos < b.pos) →
      (List.insertionSort valDesc l).Pairwise entryOrder := by
  intro l
  induction l with
  | nil => intro _; simp [List.insertionSort]
  | cons x xs ih =>
    intro hpw
    have hpw' := List.pairwise_cons.mp hpw
    rw [List.insertionSort]
    exact orderedInsert_entryOrder x _ (ih hpw'.2)
      (fun y hy => hpw'.1 y ((List.mem_insertionSort valDesc).mp hy))

/-- Helper: the indexed non-NaN entries are in strictly increasing
position order, start at the given offset, and count the non-NaN cells. -/
theorem filterMap_entryOf_enumFrom :
    ∀ (s : List (Date × Option ℚ)) (i : ℕ),
      ((List.enumFrom i s).filterMap entryOf).Pairwise
          (fun a b => a.pos < b.pos) ∧
      (∀ e ∈ (List.enumFrom i s).filterMap entryOf, i ≤ e.pos) ∧
      ((List.enumFrom i s).filterMap entryOf).length =
        s.countP (fun p => p.2.isSome) := by
  intro s
  induction s with
  | nil => intro i; simp
  | cons p s ih =>
    intro i
    obtain ⟨ih1, ih2, ih3⟩ := ih (i + 1)
    have hen : List.enumFrom i (p :: s) = (i, p) :: List.enumFrom (i + 1) s :=
      rfl
    rcases hp : p.2 with _ | v
    · have hnone : entryOf (i, p) = none := by simp [entryOf, hp]
      rw [hen, List.filterMap_cons_none hnone]
      refine ⟨ih1, fun e he => Nat.le_of_succ_le (ih2 e he), ?_⟩
      rw [ih3, List.countP_cons_of_neg]
      simp [hp]
    · have hsome : entryOf (i, p) = some (Entry.mk i p.1 v) := by
        simp [entryOf, hp]
      rw [hen, List.filterMap_cons_some hsome]
      refine ⟨?_, ?_, ?_⟩
      · exact List.pairwise_cons.mpr ⟨fun e he => ih2 e he, ih1⟩
      · intro e he
        rcases List.mem_cons.mp he with rfl | he
        · exact Nat.le_refl i
        · exact Nat.le_of_succ_le (ih2 e he)
      · rw [List.length_cons, ih3, List.countP_cons_of_pos]
        simp [hp]

theorem someEntries_pairwise_pos (s : List (Date × Option ℚ)) :
    (someEntries s).Pairwise (fun a b => a.pos < b.pos) :=
  (filterMap_entryOf_enumFrom s 0).1

theorem someEntries_length (s : List (Date × Option ℚ)) :
    (someEntries s).length = s.countP (fun p => p.2.isSome) :=
  (filterMap_entryOf_enumFrom s 0).2.2

/-- Helper: the resampler's first and last bin anchors are valid dates
bounding every observation's date. -/
theorem spanBounds (r : Obs) (rs : List Obs)
    (hv : ∀ o ∈ r :: rs, (Obs.ts o).date.Valid) :
    (minDateFold r.ts.date (rs.map (fun o => o.ts.date))).Valid ∧
    (maxDateFold r.ts.date (rs.map (fun o => o.ts.date))).Valid ∧
    (∀ o ∈ r :: rs,
      Date.le (minDateFold r.ts.date (rs.map (fun o => o.ts.date)))
        (Obs.ts o).date) ∧
    (∀ o ∈ r :: rs,
      Date.le (Obs.ts o).date
        (maxDateFold r.ts.date (rs.map (fun o => o.ts.date)))) := by
  refine ⟨?_, ?_, ?_, ?_⟩
  · rcases minDateFold_mem (rs.map (fun o => o.ts.date)) r.ts.date with h | h
    · rw [h]; exact hv r (List.mem_cons_self _ _)
    · rcases List.mem_map.mp h with ⟨o, ho, he⟩
      rw [← he]; exact hv o (List.mem_cons_of_mem _ ho)
  · rcases maxDateFold_mem (rs.map (fun o => o.ts.date)) r.ts.date with h | h
    · rw [h]; exact hv r (List.mem_cons_self _ _)
    · rcases List.mem_map.mp h with ⟨o, ho, he⟩
      rw [← he]; exact hv o (List.mem_cons_of_mem _ ho)
  · intro o ho
    rcases List.mem_cons.mp ho with rfl | ho
    · exact (minDateFold_le (rs.map (fun o => o.ts.date)) _).1
    · exact (minDateFold_le (rs.map (fun o => o.ts.date)) r.ts.date).2 _
        (List.mem_map_of_mem _ ho)
  · intro o ho
    rcases List.mem_cons.mp ho with rfl | ho
    · exact (maxDateFold_ge (rs.map (fun o => o.ts.date)) _).1
    · exact (maxDateFold_ge (rs.map (fun o => o.ts.date)) r.ts.date).2 _
        (List.mem_map_of_mem _ ho)

/-- Helper: across the daily bins, the non-NaN cells are exactly the
distinct observation days. -/
theorem countP_some_daily (rows : List Obs) (a b : Date)
    (hva : a.Valid) (hvb : b.Valid)
    (hv : ∀ o ∈ rows, (Obs.ts o).date.Valid)
    (hmin : ∀ o ∈ rows, Date.le a (Obs.ts o).date)
    (hmax : ∀ o ∈ rows, Date.le (Obs.ts o).date b) :
    ((dateRange a b).map
        (fun d => (d, (dailyAgg rows d).map DailyRow.wind_speed))).countP
      (fun p => p.2.isSome) =
      (rows.map (fun o => (Obs.ts o).date)).dedup.length := by
  rw [List.countP_map, List.countP_eq_length_filter]
  have hcong : (dateRange a b).filter
      ((fun p : Date × Option ℚ => p.2.isSome) ∘
        (fun d => (d, (dailyAgg rows d).map DailyRow.wind_speed))) =
      (dateRange a b).filter
        (fun d => decide (d ∈ rows.map (fun o => (Obs.ts o).date))) := by
    apply List.filter_congr
    intro d _
    show ((dailyAgg rows d).map DailyRow.wind_speed).isSome = _
    by_cases hmem : d ∈ rows.map (fun o => (Obs.ts o).date)
    · rcases List.mem_map.mp hmem with ⟨o, ho, he⟩
      have hne : dayGroup rows d ≠ [] := by
        intro hc
        have hin : o ∈ dayGroup rows d :=
          List.mem_filter.mpr ⟨ho, by simpa using he⟩
        rw [hc] at hin
        exact List.not_mem_nil _ hin
      have hie : (dayGroup rows d).isEmpty = false := by
        rcases hE : (dayGroup rows d).isEmpty with _ | _
        · rfl
        · exact absurd (List.isEmpty_iff.mp hE) hne
      simp [dailyAgg, hie, hmem]
    · have hnil : dayGroup rows d = [] := by
        rw [dayGroup, List.filter_eq_nil_iff]
        intro o ho
        simp only [decide_eq_true_eq]
        intro hc
        exact hmem (List.mem_map.mpr ⟨o, ho, hc⟩)
      simp [dailyAgg, hnil, hmem]
  rw [hcong]
  have hnd1 : ((dateRange a b).filter
      (fun d => decide (d ∈ rows.map (fun o => (Obs.ts o).date)))).Nodup :=
    List.Nodup.filter _ ((dateRange_sound hva).2.imp Date.ne_of_lt)
  have hperm : ((dateRange a b).filter
      (fun d => decide (d ∈ rows.map (fun o => (Obs.ts o).date)))).Perm
        ((rows.map (fun o => (Obs.ts o).date)).dedup) := by
    rw [List.perm_ext_iff_of_nodup hnd1 (List.nodup_dedup _)]
    intro x
    simp only [List.mem_filter, List.mem_dedup, decide_eq_true_eq]
    constructor
    · rintro ⟨_, hx⟩; exact hx
    · intro hx
      refine ⟨?_, hx⟩
      rcases List.mem_map.mp hx with ⟨o, ho, he⟩
      rw [← he]
      exact mem_dateRange hva hvb (hv o ho) (hmin o ho) (hmax o ho)
  exact hperm.length_eq

/-- Claim C5: the extreme-day ranking has length min(5, number of
distinct observed days); it is sorted non-increasing by daily mean wind
speed; and in the position-annotated ranking every tie is resolved by
the original (chronological) order of the daily table, i.e. the result
is ordered by the strict ranking relation of a stable descending sort. -/
theorem C5_extreme_days (r : Obs) (rs : List Obs)
    (hv : ∀ o ∈ r :: rs, (Obs.ts o).date.Valid) :
    (nlargest 5 (dailyWindSeries (resampleDaily (r :: rs)))).length =
      min 5 (((r :: rs).map (fun o => (Obs.ts o).date)).dedup.length) ∧
    (nlargest 5 (dailyWindSeries (resampleDaily (r :: rs)))).Pairwise
      (fun p q => q.2 ≤ p.2) ∧
    (nlargestIdx 5 (dailyWindSeries (resampleDaily (r :: rs)))).Pairwise
      entryOrder := by
  obtain ⟨hva, hvb, hmin, hmax⟩ := spanBounds r rs hv
  have hser : dailyWindSeries (resampleDaily (r :: rs)) =
      (dateRange (minDateFold r.ts.date (rs.map (fun o => o.ts.date)))
                 (maxDateFold r.ts.date (rs.map (fun o => o.ts.date)))).map
        (fun d => (d, (dailyAgg (r :: rs) d).map DailyRow.wind_speed)) := by
    show (List.map _ _).map _ = _
    rw [List.map_map]
    rfl
  have hlen : (someEntries (dailyWindSeries (resampleDaily (r :: rs)))).length
      = ((r :: rs).map (fun o => (Obs.ts o).date)).dedup.length := by
    rw [someEntries_length, hser]
    exact countP_some_daily (r :: rs) _ _ hva hvb hv hmin hmax
  have hsorted : (List.insertionSort valDesc
      (someEntries (dailyWindSeries (resampleDaily (r :: rs))))).Pairwise
        entryOrder :=
    insertionSort_entryOrder _ (someEntries_pairwise_pos _)
  refine ⟨?_, ?_, ?_⟩
  · show ((nlargestIdx 5 _).map _).length = _
    rw [List.length_map]
    unfold nlargestIdx
    rw [List.length_take, List.length_insertionSort, hlen]
  · unfold nlargest
    rw [List.pairwise_map]
    apply List.Pairwise.imp ?_
      (List.Pairwise.sublist (List.take_sublist _ _) hsorted)
    intro a b hab
    rcases hab with h | ⟨h, _⟩
    · exact le_of_lt h
    · exact le_of_eq h.symm
  · exact List.Pairwise.sublist (List.take_sublist _ _) hsorted

/-- Witness for C5 at two observations on distinct days. -/
theorem C5_extreme_days_witness :
    (nlargest 5 (dailyWindSeries (resampleDaily
        [Obs.mk ⟨2024, 1, 1, 0, 0, 0⟩ 3 4 5,
         Obs.mk ⟨2024, 1, 3, 0, 0, 0⟩ 0 0 7]))).length =
      min 5 ((([Obs.mk ⟨2024, 1, 1, 0, 0, 0⟩ 3 4 5,
                Obs.mk ⟨2024, 1, 3, 0, 0, 0⟩ 0 0 7]).map
          (fun o => (Obs.ts o).date)).dedup.length) :=
  (C5_extreme_days (Obs.mk ⟨2024, 1, 1, 0, 0, 0⟩ 3 4 5)
    [Obs.mk ⟨2024, 1, 3, 0, 0, 0⟩ 0 0 7] (by decide)).1

end Era5

